import Mathlib

/-!
Inverted index and TF-IDF scoring (`main.go`)

A shallow embedding of `tokenize`, `InvertedIndex.Add`, `InvertedIndex.Search`
and `InvertedIndex.TF_IDF`.

Modelling conventions.
* A Go `string` is a Lean `String` (a sequence of Unicode scalar values).
* A Go `map[string][]int` is an association list read and written at the first
  entry of a key, so that `Add` only builds lists with pairwise distinct keys;
  the `nil` map is `none`.  Every loop over the map in the source only counts or
  collects, so the iteration order of the list is immaterial.
* A Go `map[int]struct{}` is a `Finset Int`, its `len` is `Finset.card`.
* Document identifiers are `Int`; loop counters are `Nat`.
* `float64` arithmetic is taken over an arbitrary carrier `F` with a zero,
  a cast from the naturals, a product, a quotient and a logarithm `log`; the
  free carrier `Sym` records the operations performed.
* The two library functions the program calls, `unicode.ToLower` (through
  `strings.ToLower`) and `snowball.Stem`, are the fields of `Env`.
-/

namespace SearchEngine

/-- The library functions used by the program: the lower-casing of one rune and
the English stemmer, which answers `none` when it reports an error. -/
structure Env where
  toLowerRune : Char → Char
  stem : String → Option String

structure Document where
  ID : Int
  Content : String
deriving DecidableEq, Repr

/-- The Go type `map[string][]int`, as an association list. -/
abbrev IndexMap := List (String × List Int)

structure InvertedIndex where
  Index : Option IndexMap
deriving DecidableEq, Repr

/-! ## Library functions -/

/-- Go `strings.ToLower`: the rune-wise image under `unicode.ToLower`. -/
def ToLower (E : Env) (s : String) : String :=
  String.mk (s.data.map E.toLowerRune)

/-- The regexp class `\w`, which is `[0-9A-Za-z_]`. -/
def isWordChar (c : Char) : Bool :=
  ('0' ≤ c && c ≤ '9') || ('A' ≤ c && c ≤ 'Z') || ('a' ≤ c && c ≤ 'z') || c = '_'

/-- The regexp class `\s`, which is `[\t\n\f\r ]`. -/
def isRegexSpace (c : Char) : Bool :=
  c = '\t' || c = '\n' || c = '\x0c' || c = '\r' || c = ' '

/-- The call `regexp.MustCompile("[^\\w\\s]").ReplaceAllString(text, " ")` on the runes
of `text`: every rune matched by the class is replaced with one space. -/
def replaceNonWord (text : List Char) : List Char :=
  text.map (fun c => if isWordChar c || isRegexSpace c then c else ' ')

/-- Go `unicode.IsSpace`. -/
def isSpace (c : Char) : Bool :=
  c = '\t' || c = '\n' || c = '\x0b' || c = '\x0c' || c = '\r' || c = ' ' ||
  c.toNat = 0x85 || c.toNat = 0xA0 || c.toNat = 0x1680 ||
  (0x2000 ≤ c.toNat && c.toNat ≤ 0x200A) ||
  c.toNat = 0x2028 || c.toNat = 0x2029 || c.toNat = 0x202F ||
  c.toNat = 0x205F || c.toNat = 0x3000

/-- The scan of `strings.Fields`: `cur` holds the runes of the field being
read, last rune first. -/
def fieldsAux : List Char → List Char → List String
  | [], cur => if cur = [] then [] else [String.mk cur.reverse]
  | c :: cs, cur =>
    if isSpace c then
      if cur = [] then fieldsAux cs [] else String.mk cur.reverse :: fieldsAux cs []
    else fieldsAux cs (c :: cur)

/-- Go `strings.Fields`: the maximal runs of non-space runes, in order. -/
def Fields (text : List Char) : List String :=
  fieldsAux text []

/-! ## `tokenize` -/

/-- The body of the loop of `tokenize`: the stem, or the token itself when the
stemmer reports an error. -/
def stemOrSelf (E : Env) (token : String) : String :=
  match E.stem token with
  | some stemmed => stemmed
  | none => token

def tokenize (E : Env) (content : String) : List String :=
  let text := ToLower E content
  let text := replaceNonWord text.data
  (Fields text).foldl (fun steammedTokens token => steammedTokens ++ [stemOrSelf E token]) []

/-! ## The index -/

/-- The map read `m[k]` with its `found` flag. -/
def mapGet : IndexMap → String → Option (List Int)
  | [], _ => none
  | (k, v) :: rest, key => if k = key then some v else mapGet rest key

/-- The map write `m[k] = v`. -/
def mapSet : IndexMap → String → List Int → IndexMap
  | [], key, v => [(key, v)]
  | (k, w) :: rest, key, v =>
    if k = key then (k, v) :: rest else (k, w) :: mapSet rest key v

/-- The map read `m[k]` without the flag: the zero value `nil` when absent. -/
def mapGetD (m : IndexMap) (key : String) : List Int :=
  (mapGet m key).getD []

/-- The statement `tokens[token] = append(tokens[token], id)`. -/
def appendPosting (tokens : IndexMap) (token : String) (id : Int) : IndexMap :=
  mapSet tokens token (mapGetD tokens token ++ [id])

/-- The two loops of `Add`, started from the map `tokens`. -/
def addLoop (E : Env) (tokens : IndexMap) (documents : List Document) : IndexMap :=
  documents.foldl
    (fun tokens doc =>
      (tokenize E doc.Content).foldl (fun tokens token => appendPosting tokens token doc.ID) tokens)
    tokens

/-- Method `InvertedIndex.Add`: the receiver after the call, and the returned map. -/
def Add (E : Env) (_ii : InvertedIndex) (documents : List Document) :
    InvertedIndex × IndexMap :=
  let tokens := addLoop E [] documents
  ({ Index := some tokens }, tokens)

/-- Method `InvertedIndex.Search`. A read of the `nil` map finds nothing. -/
def Search (E : Env) (ii : InvertedIndex) (item : String) : List Int :=
  let token := ToLower E item
  match ii.Index with
  | none => []
  | some index =>
    match mapGet index token with
    | some docIDs => docIDs
    | none => []

/-! ## `TF_IDF` -/

/-- The loop at lines 71-76: the occurrences of `docID` in `postings`. -/
def termCountInDoc (postings : List Int) (docID : Int) : Nat :=
  postings.foldl (fun n id => if id = docID then n + 1 else n) 0

/-- The loop at lines 81-90 over the whole index: `totalTermsInDoc` and
`docsSet`. -/
def scanIndex (index : IndexMap) (docID : Int) : Nat × Finset Int :=
  index.foldl
    (fun acc entry =>
      entry.2.foldl
        (fun acc id => (if id = docID then acc.1 + 1 else acc.1, insert id acc.2))
        acc)
    (0, ∅)

/-- The loop at lines 95-98: the set of identifiers of `postings`. -/
def docFreqSet (postings : List Int) : Finset Int :=
  postings.foldl (fun s id => insert id s) ∅

/-- Method `InvertedIndex.TF_IDF`; the receiver is `none` for the `nil` pointer. -/
def TF_IDF {F : Type} [Zero F] [NatCast F] [Mul F] [Div F] (log : F → F) (E : Env)
    (ii : Option InvertedIndex) (token : String) (docID : Int) : F :=
  match ii with
  | none => 0
  | some ii =>
    match ii.Index with
    | none => 0
    | some index =>
      let token := ToLower E token
      match mapGet index token with
      | none => 0
      | some postings =>
        let termCount := termCountInDoc postings docID
        if termCount = 0 then 0
        else
          let scan := scanIndex index docID
          let totalTermsInDoc := scan.1
          let docsSet := scan.2
          if totalTermsInDoc = 0 then 0
          else
            let docFreq := docFreqSet postings
            let tf : F := (termCount : F) / (totalTermsInDoc : F)
            let idf : F := log ((docsSet.card : F) / (docFreq.card : F))
            tf * idf

/-! ## A concrete environment and the sample corpus -/

/-- An environment for evaluation: ASCII lower-casing and a stemmer that
always reports an error, so that every token is kept as it is. -/
def asciiEnv : Env where
  toLowerRune := Char.toLower
  stem := fun _ => none

/-- The slice `documents` of `main`. -/
def mainDocuments : List Document :=
  [⟨1, "The quick brown fox jumps over the lazy dog."⟩,
   ⟨2, "The lazy dog is sleeping."⟩,
   ⟨3, "The fox is quick and clever."⟩,
   ⟨4, "Dogs are loyal animals."⟩,
   ⟨5, "Foxes are wild animals."⟩]

/-- A stemmer for evaluation that never reports an error: a table of English
stems on the words of the sample corpus, and the word itself elsewhere. -/
def sampleStem (token : String) : Option String :=
  if token = "jumps" then some "jump"
  else if token = "lazy" then some "lazi"
  else if token = "sleeping" then some "sleep"
  else if token = "dogs" then some "dog"
  else if token = "animals" then some "anim"
  else if token = "foxes" then some "fox"
  else some token

/-- An environment for evaluation: ASCII lower-casing and `sampleStem`. -/
def sampleEnv : Env where
  toLowerRune := Char.toLower
  stem := sampleStem

/-! ## Reference descriptions used in the statements -/

/-- Every identifier stored in the map, posting list after posting list. -/
def allPostings (index : IndexMap) : List Int :=
  index.flatMap (fun entry => entry.2)

/-- The (term, identifier) pairs in the order in which `Add` visits them. -/
def docPairs (E : Env) (documents : List Document) : List (String × Int) :=
  documents.flatMap (fun doc => (tokenize E doc.Content).map (fun token => (token, doc.ID)))

/-- The walk of the search contract: for each document in input order, its
identifier once for each position of its token list holding `term`. -/
def occurrences (E : Env) (documents : List Document) (term : String) : List Int :=
  documents.flatMap
    (fun doc => ((tokenize E doc.Content).filter (fun token => token = term)).map (fun _ => doc.ID))

/-- The raw tokens of `tokenize`: the fields of the lower-cased, normalized
text, before stemming. -/
def rawTokens (E : Env) (content : String) : List String :=
  Fields (replaceNonWord (ToLower E content).data)

/-- The keys of the map, in the order of the association list. -/
def mapKeys (index : IndexMap) : List String :=
  index.map (fun entry => entry.1)

/-- The free carrier for the arithmetic of `TF_IDF`: a term records which
operations were applied to which integer counts, so that the divisions the
function performs, and their denominators, can be read off its result. -/
inductive Sym where
  | zero : Sym
  | ofNat : Nat → Sym
  | mul : Sym → Sym → Sym
  | div : Sym → Sym → Sym
  | log : Sym → Sym
deriving DecidableEq, Repr

instance : Zero Sym := ⟨Sym.zero⟩

instance : NatCast Sym := ⟨Sym.ofNat⟩

instance : Mul Sym := ⟨Sym.mul⟩

instance : Div Sym := ⟨Sym.div⟩

/-- The denominators of the divisions recorded in a term, outermost first and
left to right. -/
def Sym.divisors : Sym → List Sym
  | Sym.zero => []
  | Sym.ofNat _ => []
  | Sym.mul a b => a.divisors ++ b.divisors
  | Sym.div a b => b :: (a.divisors ++ b.divisors)
  | Sym.log a => a.divisors

/-- The closed form of the score, from the four counts. -/
def score {F : Type} [Zero F] [NatCast F] [Mul F] [Div F] (log : F → F)
    (c T N d : Nat) : F :=
  if c = 0 then 0 else if T = 0 then 0 else ((c : F) / (T : F)) * log ((N : F) / (d : F))

/-! ## The loops of `TF_IDF` -/

theorem termCountInDoc_foldl (postings : List Int) (docID : Int) (n : Nat) :
    postings.foldl (fun n id => if id = docID then n + 1 else n) n
      = n + postings.count docID := by
  induction postings generalizing n with
  | nil => simp
  | cons a l ih =>
    rw [List.foldl_cons, ih, List.count_cons]
    by_cases h : a = docID
    · simp [h]; omega
    · simp [h]

theorem termCountInDoc_eq_count (postings : List Int) (docID : Int) :
    termCountInDoc postings docID = postings.count docID := by
  unfold termCountInDoc
  rw [termCountInDoc_foldl]; simp

theorem docFreqSet_foldl (postings : List Int) (s : Finset Int) :
    postings.foldl (fun s id => insert id s) s = s ∪ postings.toFinset := by
  induction postings generalizing s with
  | nil => simp
  | cons a l ih =>
    rw [List.foldl_cons, ih]
    ext x; simp

theorem docFreqSet_eq_toFinset (postings : List Int) :
    docFreqSet postings = postings.toFinset := by
  unfold docFreqSet
  rw [docFreqSet_foldl]; simp

theorem scanIndex_inner (ids : List Int) (docID : Int) (acc : Nat × Finset Int) :
    ids.foldl (fun acc id => (if id = docID then acc.1 + 1 else acc.1, insert id acc.2)) acc
      = (acc.1 + ids.count docID, acc.2 ∪ ids.toFinset) := by
  induction ids generalizing acc with
  | nil => simp
  | cons a l ih =>
    rw [List.foldl_cons, ih, List.count_cons]
    by_cases h : a = docID
    · refine Prod.ext ?_ ?_
      · simp [h]; omega
      · ext x; simp
    · refine Prod.ext ?_ ?_
      · simp [h]
      · ext x; simp

theorem scanIndex_outer (index : IndexMap) (docID : Int) (acc : Nat × Finset Int) :
    index.foldl
        (fun acc entry =>
          entry.2.foldl
            (fun acc id => (if id = docID then acc.1 + 1 else acc.1, insert id acc.2))
            acc)
        acc
      = (acc.1 + (allPostings index).count docID, acc.2 ∪ (allPostings index).toFinset) := by
  induction index generalizing acc with
  | nil => simp [allPostings]
  | cons e rest ih =>
    rw [List.foldl_cons, ih, scanIndex_inner]
    simp only [allPostings, List.flatMap_cons, List.count_append, List.toFinset_append]
    refine Prod.ext ?_ ?_
    · simp; omega
    · simp [Finset.union_assoc]

theorem scanIndex_eq (index : IndexMap) (docID : Int) :
    scanIndex index docID
      = ((allPostings index).count docID, (allPostings index).toFinset) := by
  unfold scanIndex
  rw [scanIndex_outer]; simp

/-! ## The map operations -/

theorem mapGet_mapSet (m : IndexMap) (k : String) (v : List Int) (key : String) :
    mapGet (mapSet m k v) key = if k = key then some v else mapGet m key := by
  induction m with
  | nil => simp [mapSet, mapGet]
  | cons e rest ih =>
    obtain ⟨k', w⟩ := e
    by_cases h : k' = k
    · subst h
      by_cases h2 : k' = key <;> simp [mapSet, mapGet, h2]
    · by_cases h2 : k' = key
      · subst h2
        simp [mapSet, mapGet, h, Ne.symm h]
      · simp [mapSet, mapGet, h, h2, ih]

theorem mapGetD_appendPosting (m : IndexMap) (k : String) (id : Int) (key : String) :
    mapGetD (appendPosting m k id) key
      = if k = key then mapGetD m key ++ [id] else mapGetD m key := by
  unfold appendPosting
  by_cases h : k = key
  · subst h; simp [mapGetD, mapGet_mapSet]
  · simp [mapGetD, mapGet_mapSet, h]

theorem allPostings_appendPosting (m : IndexMap) (k : String) (id : Int) :
    (allPostings (appendPosting m k id)).Perm (id :: allPostings m) := by
  induction m with
  | nil => simp [appendPosting, mapSet, mapGetD, mapGet, allPostings]
  | cons e rest ih =>
    obtain ⟨k', w⟩ := e
    by_cases h : k' = k
    · subst h
      simp only [appendPosting, mapGetD, mapGet, mapSet, if_true, Option.getD_some,
        allPostings, List.flatMap_cons]
      rw [List.append_assoc]
      exact List.perm_middle
    · have ih' : (allPostings (mapSet rest k (mapGetD rest k ++ [id]))).Perm
          (id :: allPostings rest) := ih
      simp only [appendPosting, mapGetD, mapGet, mapSet, if_neg h, allPostings,
        List.flatMap_cons]
      exact (List.Perm.append_left w ih').trans List.perm_middle

/-! ## The loops of `Add` -/

theorem addLoop_eq_foldl (E : Env) (m : IndexMap) (documents : List Document) :
    addLoop E m documents
      = (docPairs E documents).foldl (fun m p => appendPosting m p.1 p.2) m := by
  unfold addLoop
  induction documents generalizing m with
  | nil => simp [docPairs]
  | cons doc rest ih =>
    rw [List.foldl_cons, ih]
    simp only [docPairs, List.flatMap_cons, List.foldl_append, List.foldl_map]

theorem mapGetD_foldl_pairs (pairs : List (String × Int)) (m : IndexMap) (key : String) :
    mapGetD (pairs.foldl (fun m p => appendPosting m p.1 p.2) m) key
      = mapGetD m key ++ (pairs.filter (fun p => p.1 = key)).map (fun p => p.2) := by
  induction pairs generalizing m with
  | nil => simp
  | cons p rest ih =>
    rw [List.foldl_cons, ih, mapGetD_appendPosting]
    by_cases h : p.1 = key
    · simp [h, List.filter_cons]
    · simp [h, List.filter_cons]

theorem allPostings_foldl_pairs (pairs : List (String × Int)) (m : IndexMap) :
    (allPostings (pairs.foldl (fun m p => appendPosting m p.1 p.2) m)).Perm
      (allPostings m ++ pairs.map (fun p => p.2)) := by
  induction pairs generalizing m with
  | nil => simp
  | cons p rest ih =>
    rw [List.foldl_cons]
    refine (ih _).trans ?_
    rw [List.map_cons]
    refine ((allPostings_appendPosting m p.1 p.2).append_right _).trans ?_
    exact List.perm_middle.symm

theorem occurrences_eq_pairs (E : Env) (documents : List Document) (term : String) :
    ((docPairs E documents).filter (fun p => p.1 = term)).map (fun p => p.2)
      = occurrences E documents term := by
  induction documents with
  | nil => simp [docPairs, occurrences]
  | cons doc rest ih =>
    have ih' : List.map (fun p => p.2)
        (List.filter (fun p => decide (p.1 = term))
          (rest.flatMap fun doc => (tokenize E doc.Content).map fun token => (token, doc.ID)))
        = rest.flatMap fun doc =>
            ((tokenize E doc.Content).filter fun token => decide (token = term)).map
              fun _ => doc.ID := ih
    simp only [docPairs, occurrences, List.flatMap_cons, List.filter_append, List.map_append,
      ih']
    congr 1
    induction tokenize E doc.Content with
    | nil => simp
    | cons t ts iht =>
      by_cases h : t = term <;> simp [List.filter_cons, h, iht]

/-- The posting list that `Add` stores under `term`, read with `nil` for an
absent key. -/
theorem mapGetD_addLoop (E : Env) (documents : List Document) (term : String) :
    mapGetD (addLoop E [] documents) term = occurrences E documents term := by
  rw [addLoop_eq_foldl, mapGetD_foldl_pairs, occurrences_eq_pairs]
  simp [mapGetD, mapGet]

theorem allPostings_addLoop (E : Env) (documents : List Document) :
    (allPostings (addLoop E [] documents)).Perm ((docPairs E documents).map (fun p => p.2)) := by
  rw [addLoop_eq_foldl]
  simpa [allPostings] using allPostings_foldl_pairs (docPairs E documents) []

theorem Search_eq_mapGetD (E : Env) (index : IndexMap) (item : String) :
    Search E { Index := some index } item = mapGetD index (ToLower E item) := by
  simp only [Search, mapGetD]
  cases h : mapGet index (ToLower E item) <;> simp

/-! ## `TF_IDF` in closed form -/

theorem mapGet_count_le (m : IndexMap) (key : String) (postings : List Int)
    (h : mapGet m key = some postings) (id : Int) :
    postings.count id ≤ (allPostings m).count id := by
  induction m with
  | nil => simp [mapGet] at h
  | cons e rest ih =>
    obtain ⟨k, w⟩ := e
    simp only [allPostings, List.flatMap_cons, List.count_append]
    by_cases hk : k = key
    · simp only [mapGet, if_pos hk, Option.some.injEq] at h
      subst h
      omega
    · simp only [mapGet, if_neg hk] at h
      have := ih h
      simp only [allPostings] at this
      omega

theorem mapGet_subset (m : IndexMap) (key : String) (postings : List Int)
    (h : mapGet m key = some postings) :
    postings.toFinset ⊆ (allPostings m).toFinset := by
  intro id hid
  rw [List.mem_toFinset] at hid ⊢
  have h1 : 0 < postings.count id := List.count_pos_iff.mpr hid
  have h2 := mapGet_count_le m key postings h id
  exact List.count_pos_iff.mp (by omega)

theorem TF_IDF_eq_score {F : Type} [Zero F] [NatCast F] [Mul F] [Div F] (log : F → F)
    (E : Env) (index : IndexMap) (term : String) (docID : Int) :
    TF_IDF log E (some { Index := some index }) term docID
      = score log ((mapGetD index (ToLower E term)).count docID)
          ((allPostings index).count docID)
          (allPostings index).toFinset.card
          (mapGetD index (ToLower E term)).toFinset.card := by
  simp only [TF_IDF, mapGetD, score]
  cases h : mapGet index (ToLower E term) with
  | none => simp
  | some postings =>
    simp only [Option.getD_some, termCountInDoc_eq_count, scanIndex_eq, docFreqSet_eq_toFinset]

/-! ## The identifiers stored by `Add` -/

theorem docPairs_perm (E : Env) {docs docs' : List Document} (h : docs'.Perm docs) :
    (docPairs E docs').Perm (docPairs E docs) :=
  List.Perm.flatMap_right _ h

theorem occurrences_perm (E : Env) {docs docs' : List Document} (h : docs'.Perm docs)
    (term : String) : (occurrences E docs' term).Perm (occurrences E docs term) :=
  List.Perm.flatMap_right _ h

theorem mem_occurrences (E : Env) (docs : List Document) (term : String) (id : Int) :
    id ∈ occurrences E docs term
      ↔ ∃ doc ∈ docs, doc.ID = id ∧ term ∈ tokenize E doc.Content := by
  simp only [occurrences, List.mem_flatMap, List.mem_map, List.mem_filter, decide_eq_true_eq]
  constructor
  · rintro ⟨doc, hdoc, t, ⟨ht, rfl⟩, rfl⟩
    exact ⟨doc, hdoc, rfl, ht⟩
  · rintro ⟨doc, hdoc, rfl, ht⟩
    exact ⟨doc, hdoc, term, ⟨ht, rfl⟩, rfl⟩

theorem mem_docPairs_ids (E : Env) (docs : List Document) (id : Int) :
    id ∈ (docPairs E docs).map (fun p => p.2)
      ↔ ∃ doc ∈ docs, doc.ID = id ∧ tokenize E doc.Content ≠ [] := by
  simp only [docPairs, List.mem_map, List.mem_flatMap]
  constructor
  · rintro ⟨p, ⟨doc, hdoc, t, ht, rfl⟩, rfl⟩
    exact ⟨doc, hdoc, rfl, List.ne_nil_of_mem ht⟩
  · rintro ⟨doc, hdoc, rfl, hne⟩
    obtain ⟨t, ht⟩ := List.exists_mem_of_ne_nil _ hne
    exact ⟨(t, doc.ID), ⟨doc, hdoc, t, ht, rfl⟩, rfl⟩

theorem count_docPairs_ids (E : Env) (docs : List Document) (id : Int) :
    ((docPairs E docs).map (fun p => p.2)).count id
      = ((docs.filter (fun doc => doc.ID = id)).map
          (fun doc => (tokenize E doc.Content).length)).sum := by
  induction docs with
  | nil => simp [docPairs]
  | cons doc rest ih =>
    have ih' : List.count id
        (List.map (fun p => p.2)
          (rest.flatMap fun doc => (tokenize E doc.Content).map fun token => (token, doc.ID)))
        = ((rest.filter (fun doc => doc.ID = id)).map
            (fun doc => (tokenize E doc.Content).length)).sum := ih
    simp only [docPairs, List.flatMap_cons, List.map_append, List.count_append, ih',
      List.map_map]
    have hrep : List.map ((fun p : String × Int => p.2) ∘ fun token => (token, doc.ID))
        (tokenize E doc.Content)
        = List.replicate (tokenize E doc.Content).length doc.ID := by
      rw [List.eq_replicate_iff]
      simp
    rw [hrep, List.count_replicate]
    by_cases h : doc.ID = id
    · simp [List.filter_cons, h]
    · simp [List.filter_cons, h]

/-! ## Search after `Add` -/

/-- C1: after `Add(docs)`, whatever the receiver held before, `Search(q)` is the
list obtained by walking `docs` in input order and emitting the identifier of
each document once for each position of its token list whose token equals the
lower-cased `q`, in token order; identifiers may repeat and need not be sorted. -/
theorem Search_Add_eq_occurrences (E : Env) (ii : InvertedIndex) (docs : List Document)
    (q : String) :
    Search E (Add E ii docs).1 q = occurrences E docs (ToLower E q) := by
  simp only [Add]
  rw [Search_eq_mapGetD, mapGetD_addLoop]

/-- C2: the receiver after `Add(docs)` does not depend on what it held before:
after `Add(docs)` twice in a row, after `Add(other)` then `Add(docs)`, and after
`Add(docs)` on any prior state, the stored index is the one a single `Add(docs)`
builds on a fresh receiver, and so is every `Search(q)`. -/
theorem Add_full_replace (E : Env) (prior : InvertedIndex) (other docs : List Document) :
    (Add E (Add E prior docs).1 docs).1 = (Add E { Index := none } docs).1 ∧
    (Add E (Add E prior other).1 docs).1 = (Add E { Index := none } docs).1 ∧
    (Add E prior docs).1 = (Add E { Index := none } docs).1 ∧
    ∀ q : String,
      Search E (Add E (Add E prior docs).1 docs).1 q
          = Search E (Add E { Index := none } docs).1 q ∧
      Search E (Add E (Add E prior other).1 docs).1 q
          = Search E (Add E { Index := none } docs).1 q ∧
      Search E (Add E prior docs).1 q = Search E (Add E { Index := none } docs).1 q :=
  ⟨rfl, rfl, rfl, fun _ => ⟨rfl, rfl, rfl⟩⟩

/-! ## The score -/

/-- C3: when the lower-cased term is a key with posting list `postings` and
`docID` occurs in `postings`, `TF_IDF` is `(c / T) * log (N / d)` with `c` the
occurrences of `docID` in `postings`, `T` its occurrences over all posting
lists, `N` the number of distinct identifiers over all posting lists and `d`
the number of distinct identifiers of `postings`; nothing is added to any of
the four counts. -/
theorem TF_IDF_formula {F : Type} [Zero F] [NatCast F] [Mul F] [Div F] (log : F → F)
    (E : Env) (index : IndexMap) (term : String) (docID : Int) (postings : List Int)
    (hkey : mapGet index (ToLower E term) = some postings) (hmem : docID ∈ postings) :
    TF_IDF log E (some { Index := some index }) term docID
      = (((postings.count docID : Nat) : F) / (((allPostings index).count docID : Nat) : F))
          * log ((((allPostings index).toFinset.card : Nat) : F)
                  / ((postings.toFinset.card : Nat) : F)) := by
  have hc : 0 < postings.count docID := List.count_pos_iff.mpr hmem
  have hT := mapGet_count_le index _ postings hkey docID
  rw [TF_IDF_eq_score]
  simp only [mapGetD, hkey, Option.getD_some, score]
  rw [if_neg (by omega), if_neg (by omega)]

theorem TF_IDF_formula_witness :
    mapGet [("a", [1, 2, 1]), ("b", [1])] (ToLower asciiEnv "A") = some [1, 2, 1] ∧
    (1 : Int) ∈ [1, 2, 1] ∧
    TF_IDF Real.log asciiEnv (some { Index := some [("a", [1, 2, 1]), ("b", [1])] }) "A" 1
      = ((([1, 2, 1].count (1 : Int) : Nat) : ℝ)
            / (((allPostings [("a", [1, 2, 1]), ("b", [1])]).count 1 : Nat) : ℝ))
          * Real.log ((((allPostings [("a", [1, 2, 1]), ("b", [1])]).toFinset.card : Nat) : ℝ)
                  / ((([1, 2, 1] : List Int).toFinset.card : Nat) : ℝ)) :=
  ⟨by decide, by decide,
    TF_IDF_formula Real.log asciiEnv [("a", [1, 2, 1]), ("b", [1])] "A" 1 [1, 2, 1]
      (by decide) (by decide)⟩

/-- C4: `TF_IDF` is exactly `0` on a `nil` receiver, on a receiver whose map
was never built, when the lower-cased term is not a key, and when it is a key
whose posting list does not contain `docID`. -/
theorem TF_IDF_not_found {F : Type} [Zero F] [NatCast F] [Mul F] [Div F] (log : F → F)
    (E : Env) (term : String) (docID : Int) :
    TF_IDF log E none term docID = 0 ∧
    TF_IDF log E (some { Index := none }) term docID = 0 ∧
    (∀ index : IndexMap, mapGet index (ToLower E term) = none →
      TF_IDF log E (some { Index := some index }) term docID = 0) ∧
    (∀ (index : IndexMap) (postings : List Int),
      mapGet index (ToLower E term) = some postings → docID ∉ postings →
      TF_IDF log E (some { Index := some index }) term docID = 0) := by
  refine ⟨rfl, rfl, ?_, ?_⟩
  · intro index h
    simp [TF_IDF, h]
  · intro index postings h hmem
    have hc : postings.count docID = 0 := List.count_eq_zero.mpr hmem
    simp [TF_IDF, h, termCountInDoc_eq_count, hc]

theorem TF_IDF_not_found_witness :
    mapGet [("a", [1])] (ToLower asciiEnv "B") = none ∧
    TF_IDF Real.log asciiEnv (some { Index := some [("a", [1])] }) "B" 1 = 0 ∧
    mapGet [("a", [1])] (ToLower asciiEnv "A") = some [1] ∧ (2 : Int) ∉ [(1 : Int)] ∧
    TF_IDF Real.log asciiEnv (some { Index := some [("a", [1])] }) "A" 2 = 0 :=
  ⟨by decide,
    (TF_IDF_not_found Real.log asciiEnv "B" 1).2.2.1 [("a", [1])] (by decide),
    by decide, by decide,
    (TF_IDF_not_found Real.log asciiEnv "A" 2).2.2.2 [("a", [1])] [1] (by decide) (by decide)⟩

/-- C5: the score does not depend on the order in which the documents are
indexed: for `docs'` a permutation of `docs`, `TF_IDF` gives the same value on
the index built from `docs'` as on the index built from `docs`, for every
term and identifier. -/
theorem TF_IDF_perm_invariant {F : Type} [Zero F] [NatCast F] [Mul F] [Div F]
    (log : F → F) (E : Env) (ii ii' : InvertedIndex) (docs docs' : List Document)
    (hperm : docs'.Perm docs) (term : String) (docID : Int) :
    TF_IDF log E (some (Add E ii' docs').1) term docID
      = TF_IDF log E (some (Add E ii docs).1) term docID := by
  have hocc := occurrences_perm E hperm (ToLower E term)
  have hall : (allPostings (addLoop E [] docs')).Perm (allPostings (addLoop E [] docs)) :=
    ((allPostings_addLoop E docs').trans ((docPairs_perm E hperm).map _)).trans
      (allPostings_addLoop E docs).symm
  simp only [Add]
  rw [TF_IDF_eq_score, TF_IDF_eq_score, mapGetD_addLoop, mapGetD_addLoop,
    hocc.count_eq, hall.count_eq, List.toFinset_eq_of_perm _ _ hocc,
    List.toFinset_eq_of_perm _ _ hall]

theorem TF_IDF_perm_invariant_witness :
    List.Perm [(⟨2, "b a"⟩ : Document), ⟨1, "A b"⟩] [⟨1, "A b"⟩, ⟨2, "b a"⟩] ∧
    TF_IDF Real.log asciiEnv (some (Add asciiEnv { Index := none }
        [⟨2, "b a"⟩, ⟨1, "A b"⟩]).1) "a" 1
      = TF_IDF Real.log asciiEnv (some (Add asciiEnv { Index := none }
        [⟨1, "A b"⟩, ⟨2, "b a"⟩]).1) "a" 1 :=
  ⟨List.Perm.swap _ _ _,
    TF_IDF_perm_invariant Real.log asciiEnv { Index := none } { Index := none }
      [⟨1, "A b"⟩, ⟨2, "b a"⟩] [⟨2, "b a"⟩, ⟨1, "A b"⟩] (List.Perm.swap _ _ _) "a" 1⟩

/-- C6: `Search(q)` is the lookup of the lower-cased `q` and nothing more: the
stored posting list itself when the lower-cased `q` is a key, the empty list
when it is not or when the map was never built; hence two queries with the
same lower-casing give the same result. -/
theorem Search_exact_lookup (E : Env) (ii : InvertedIndex) (q : String) :
    (∀ (index : IndexMap) (postings : List Int), ii.Index = some index →
      mapGet index (ToLower E q) = some postings → Search E ii q = postings) ∧
    (∀ index : IndexMap, ii.Index = some index →
      mapGet index (ToLower E q) = none → Search E ii q = []) ∧
    (ii.Index = none → Search E ii q = []) ∧
    (∀ q' : String, ToLower E q' = ToLower E q → Search E ii q' = Search E ii q) := by
  refine ⟨?_, ?_, ?_, ?_⟩
  · intro index postings hi hk
    simp [Search, hi, hk]
  · intro index hi hk
    simp [Search, hi, hk]
  · intro hi
    simp [Search, hi]
  · intro q' hq
    simp [Search, hq]

theorem Search_exact_lookup_witness :
    (({ Index := some [("the", [1, 1, 2, 3])] } : InvertedIndex).Index
        = some [("the", [1, 1, 2, 3])] ∧
      mapGet [("the", [1, 1, 2, 3])] (ToLower asciiEnv "The") = some [1, 1, 2, 3] ∧
      Search asciiEnv { Index := some [("the", [1, 1, 2, 3])] } "The" = [1, 1, 2, 3]) ∧
    (mapGet [("the", [1, 1, 2, 3])] (ToLower asciiEnv "the.") = none ∧
      Search asciiEnv { Index := some [("the", [1, 1, 2, 3])] } "the." = []) ∧
    (Search asciiEnv { Index := none } "the" = []) ∧
    (ToLower asciiEnv "THE" = ToLower asciiEnv "The" ∧
      Search asciiEnv { Index := some [("the", [1, 1, 2, 3])] } "THE"
        = Search asciiEnv { Index := some [("the", [1, 1, 2, 3])] } "The") :=
  ⟨⟨rfl, by decide,
      (Search_exact_lookup asciiEnv { Index := some [("the", [1, 1, 2, 3])] } "The").1
        [("the", [1, 1, 2, 3])] [1, 1, 2, 3] rfl (by decide)⟩,
    ⟨by decide,
      (Search_exact_lookup asciiEnv { Index := some [("the", [1, 1, 2, 3])] } "the.").2.1
        [("the", [1, 1, 2, 3])] rfl (by decide)⟩,
    (Search_exact_lookup asciiEnv { Index := none } "the").2.2.1 rfl,
    ⟨by decide,
      (Search_exact_lookup asciiEnv { Index := some [("the", [1, 1, 2, 3])] } "The").2.2.2
        "THE" (by decide)⟩⟩

/-! ## The corpus statistics read back from the index -/

/-- C7, as stated, fails: a document without tokens leaves no posting, so
after `Add` of a one-token document 1 and an empty document 2 the set
`docsSet` of `TF_IDF` has one element while the list has two identifiers. -/
theorem docsSet_card_counterexample :
    (scanIndex (Add asciiEnv { Index := none } [⟨1, "a"⟩, ⟨2, ""⟩]).2 1).2.card = 1 ∧
    (([⟨1, "a"⟩, ⟨2, ""⟩] : List Document).map (fun doc => doc.ID)).toFinset.card = 2 := by
  decide

/-- C7, amended: the map stored by `Add(docs)` is the returned one, and the
size of `docsSet` computed on it by `TF_IDF` is the number of distinct
identifiers among the documents of `docs` whose token list is not empty. -/
theorem docsSet_card_eq (E : Env) (ii : InvertedIndex) (docs : List Document) (docID : Int) :
    (Add E ii docs).1.Index = some (Add E ii docs).2 ∧
    (scanIndex (Add E ii docs).2 docID).2.card
      = ((docs.filter (fun doc => tokenize E doc.Content ≠ [])).map
          (fun doc => doc.ID)).toFinset.card := by
  refine ⟨rfl, ?_⟩
  simp only [Add, scanIndex_eq]
  rw [List.toFinset_eq_of_perm _ _ (allPostings_addLoop E docs)]
  congr 1
  ext id
  rw [List.mem_toFinset, List.mem_toFinset, mem_docPairs_ids]
  simp only [List.mem_map, List.mem_filter, decide_eq_true_eq]
  constructor
  · rintro ⟨doc, hdoc, hid, hne⟩
    exact ⟨doc, ⟨hdoc, hne⟩, hid⟩
  · rintro ⟨doc, ⟨hdoc, hne⟩, hid⟩
    exact ⟨doc, hdoc, hid, hne⟩

/-- C8: the map stored by `Add(docs)` is the returned one, and the value of
`totalTermsInDoc` computed on it by `TF_IDF` for `id` is the total number of
tokens of the documents of `docs` whose identifier is `id`. -/
theorem totalTermsInDoc_eq (E : Env) (ii : InvertedIndex) (docs : List Document) (id : Int) :
    (Add E ii docs).1.Index = some (Add E ii docs).2 ∧
    (scanIndex (Add E ii docs).2 id).1
      = ((docs.filter (fun doc => doc.ID = id)).map
          (fun doc => (tokenize E doc.Content).length)).sum := by
  refine ⟨rfl, ?_⟩
  simp only [Add, scanIndex_eq]
  rw [(allPostings_addLoop E docs).count_eq, count_docPairs_ids]

/-! ## Sign of the score -/

/-- C9: over the reals `TF_IDF` is never negative, for every receiver, term and
identifier; and whenever the lower-cased term is a key whose posting list
contains `docID`, the size `d` of `docFreqSet` and the size `N` of `docsSet`
satisfy `1 ≤ d ≤ N`, so that `1 ≤ N / d` and `0 ≤ log (N / d)`. -/
theorem TF_IDF_nonneg (E : Env) (ii : Option InvertedIndex) (term : String) (docID : Int) :
    0 ≤ TF_IDF Real.log E ii term docID ∧
    ∀ (s : InvertedIndex) (index : IndexMap) (postings : List Int),
      ii = some s → s.Index = some index →
      mapGet index (ToLower E term) = some postings → docID ∈ postings →
      1 ≤ (docFreqSet postings).card ∧
      (docFreqSet postings).card ≤ (scanIndex index docID).2.card ∧
      (1 : ℝ) ≤ ((scanIndex index docID).2.card : ℝ) / ((docFreqSet postings).card : ℝ) ∧
      0 ≤ Real.log (((scanIndex index docID).2.card : ℝ) / ((docFreqSet postings).card : ℝ)) := by
  have key : ∀ (index : IndexMap) (postings : List Int),
      mapGet index (ToLower E term) = some postings → docID ∈ postings →
      1 ≤ postings.toFinset.card ∧
      postings.toFinset.card ≤ (allPostings index).toFinset.card ∧
      (1 : ℝ) ≤ ((allPostings index).toFinset.card : ℝ) / (postings.toFinset.card : ℝ) := by
    intro index postings hk hmem
    have h1 : 1 ≤ postings.toFinset.card :=
      Finset.card_pos.mpr ⟨docID, List.mem_toFinset.mpr hmem⟩
    have h2 : postings.toFinset.card ≤ (allPostings index).toFinset.card :=
      Finset.card_le_card (mapGet_subset index _ postings hk)
    refine ⟨h1, h2, ?_⟩
    have hpos : (0 : ℝ) < (postings.toFinset.card : ℝ) := by exact_mod_cast h1
    rw [one_le_div hpos]
    exact_mod_cast h2
  constructor
  · cases ii with
    | none => simp [TF_IDF]
    | some s =>
      obtain ⟨idx⟩ := s
      cases idx with
      | none => simp [TF_IDF]
      | some index =>
        rw [TF_IDF_eq_score]
        unfold score
        split_ifs with hc hT
        · exact le_refl 0
        · exact le_refl 0
        · cases hk : mapGet index (ToLower E term) with
          | none => simp [mapGetD, hk] at hc
          | some postings =>
            simp only [mapGetD, hk, Option.getD_some] at hc ⊢
            have hmem : docID ∈ postings :=
              List.count_pos_iff.mp (Nat.pos_of_ne_zero hc)
            obtain ⟨_, _, h3⟩ := key index postings hk hmem
            exact mul_nonneg (div_nonneg (Nat.cast_nonneg _) (Nat.cast_nonneg _))
              (Real.log_nonneg h3)
  · intro s index postings _ _ hk hmem
    obtain ⟨h1, h2, h3⟩ := key index postings hk hmem
    rw [docFreqSet_eq_toFinset, scanIndex_eq]
    exact ⟨h1, h2, h3, Real.log_nonneg h3⟩

theorem TF_IDF_nonneg_witness :
    0 ≤ TF_IDF Real.log asciiEnv (some { Index := some [("a", [1, 1]), ("b", [2, 3])] }) "A" 1 ∧
    mapGet [("a", [1, 1]), ("b", [2, 3])] (ToLower asciiEnv "A") = some [1, 1] ∧
    (1 : Int) ∈ [(1 : Int), 1] ∧
    1 ≤ (docFreqSet [1, 1]).card ∧
    (docFreqSet [1, 1]).card ≤ (scanIndex [("a", [1, 1]), ("b", [2, 3])] 1).2.card :=
  ⟨(TF_IDF_nonneg asciiEnv (some { Index := some [("a", [1, 1]), ("b", [2, 3])] }) "A" 1).1,
    by decide, by decide,
    ((TF_IDF_nonneg asciiEnv (some { Index := some [("a", [1, 1]), ("b", [2, 3])] }) "A" 1).2
      { Index := some [("a", [1, 1]), ("b", [2, 3])] } [("a", [1, 1]), ("b", [2, 3])] [1, 1]
      rfl rfl (by decide) (by decide)).1,
    ((TF_IDF_nonneg asciiEnv (some { Index := some [("a", [1, 1]), ("b", [2, 3])] }) "A" 1).2
      { Index := some [("a", [1, 1]), ("b", [2, 3])] } [("a", [1, 1]), ("b", [2, 3])] [1, 1]
      rfl rfl (by decide) (by decide)).2.1⟩

/-- C10: when the term `t`, itself fixed by lower-casing as every token of the
program is, occurs among the tokens of every document of `docs`, the score of
`t` over the reals on the index built by `Add(docs)` is `0` for every
identifier: the sets `docsSet` and `docFreqSet` coincide and `log 1 = 0`. -/
theorem TF_IDF_zero_of_term_everywhere (E : Env) (ii : InvertedIndex) (docs : List Document)
    (t : String) (hall : ∀ doc ∈ docs, t ∈ tokenize E doc.Content)
    (hlow : ToLower E t = t) (id : Int) :
    TF_IDF Real.log E (some (Add E ii docs).1) t id = 0 := by
  have hset : (allPostings (addLoop E [] docs)).toFinset = (occurrences E docs t).toFinset := by
    rw [List.toFinset_eq_of_perm _ _ (allPostings_addLoop E docs)]
    ext x
    rw [List.mem_toFinset, List.mem_toFinset, mem_docPairs_ids, mem_occurrences]
    constructor
    · rintro ⟨doc, hdoc, hid, _⟩
      exact ⟨doc, hdoc, hid, hall doc hdoc⟩
    · rintro ⟨doc, hdoc, hid, ht⟩
      exact ⟨doc, hdoc, hid, List.ne_nil_of_mem ht⟩
  simp only [Add]
  rw [TF_IDF_eq_score, hlow, mapGetD_addLoop, hset]
  unfold score
  split_ifs with hc hT
  · rfl
  · rfl
  · have hmem : id ∈ occurrences E docs t := List.count_pos_iff.mp (Nat.pos_of_ne_zero hc)
    have hpos : 0 < (occurrences E docs t).toFinset.card :=
      Finset.card_pos.mpr ⟨id, List.mem_toFinset.mpr hmem⟩
    have hne : ((occurrences E docs t).toFinset.card : ℝ) ≠ 0 := by
      exact_mod_cast Nat.pos_iff_ne_zero.mp hpos
    rw [div_self hne, Real.log_one, mul_zero]

theorem TF_IDF_zero_of_term_everywhere_witness :
    (∀ doc ∈ ([⟨1, "a b"⟩, ⟨2, "c A"⟩] : List Document), "a" ∈ tokenize asciiEnv doc.Content) ∧
    ToLower asciiEnv "a" = "a" ∧
    TF_IDF Real.log asciiEnv (some (Add asciiEnv { Index := none }
        [⟨1, "a b"⟩, ⟨2, "c A"⟩]).1) "a" 2 = 0 :=
  ⟨by decide, by decide,
    TF_IDF_zero_of_term_everywhere asciiEnv { Index := none } [⟨1, "a b"⟩, ⟨2, "c A"⟩] "a"
      (by decide) (by decide) 2⟩

/-! ## Guards and bounds of the score -/

/-- C12: for every receiver (`nil`, never built, or any map), term and
identifier, `TF_IDF` never divides by zero. Run on the free carrier, which
records the operations performed, its result is either `0` with no division at
all, or the lower-cased term is a key with `termCountInDoc` not zero and exactly
two divisions are performed, by `totalTermsInDoc` and by the size of
`docFreqSet`, both at least 1; in every case each recorded denominator is the
cast of a count that is at least 1. -/
theorem TF_IDF_never_divides_by_zero (E : Env) (ii : Option InvertedIndex) (term : String)
    (docID : Int) :
    (∀ b ∈ (TF_IDF Sym.log E ii term docID).divisors, ∃ n : Nat, 1 ≤ n ∧ b = Sym.ofNat n) ∧
    ((TF_IDF Sym.log E ii term docID = Sym.zero ∧
        (TF_IDF Sym.log E ii term docID).divisors = []) ∨
      ∃ (index : IndexMap) (postings : List Int),
        ii = some { Index := some index } ∧
        mapGet index (ToLower E term) = some postings ∧
        termCountInDoc postings docID ≠ 0 ∧
        (TF_IDF Sym.log E ii term docID).divisors
          = [Sym.ofNat (scanIndex index docID).1, Sym.ofNat (docFreqSet postings).card] ∧
        1 ≤ (scanIndex index docID).1 ∧ 1 ≤ (docFreqSet postings).card) := by
  have hzero : ∀ x : Sym, x = Sym.zero →
      (∀ b ∈ x.divisors, ∃ n : Nat, 1 ≤ n ∧ b = Sym.ofNat n) ∧
      ((x = Sym.zero ∧ x.divisors = []) ∨
        ∃ (index : IndexMap) (postings : List Int),
          ii = some { Index := some index } ∧
          mapGet index (ToLower E term) = some postings ∧
          termCountInDoc postings docID ≠ 0 ∧
          x.divisors
            = [Sym.ofNat (scanIndex index docID).1, Sym.ofNat (docFreqSet postings).card] ∧
          1 ≤ (scanIndex index docID).1 ∧ 1 ≤ (docFreqSet postings).card) := by
    rintro x rfl
    exact ⟨by simp [Sym.divisors], Or.inl ⟨rfl, rfl⟩⟩
  cases ii with
  | none => exact hzero _ rfl
  | some s =>
    obtain ⟨idx⟩ := s
    cases idx with
    | none => exact hzero _ rfl
    | some index =>
      cases hkey : mapGet index (ToLower E term) with
      | none =>
        apply hzero
        simp only [TF_IDF, hkey]
        rfl
      | some postings =>
        by_cases hc : termCountInDoc postings docID = 0
        · apply hzero
          simp only [TF_IDF, hkey, hc, if_true]
          rfl
        · have hc' := hc
          rw [termCountInDoc_eq_count] at hc'
          have hle := mapGet_count_le index _ postings hkey docID
          have hmem : docID ∈ postings := List.count_pos_iff.mp (Nat.pos_of_ne_zero hc')
          have hT : (scanIndex index docID).1 ≠ 0 := by
            rw [scanIndex_eq]
            show (allPostings index).count docID ≠ 0
            omega
          have hd : 1 ≤ (docFreqSet postings).card := by
            rw [docFreqSet_eq_toFinset]
            exact Finset.card_pos.mpr ⟨docID, List.mem_toFinset.mpr hmem⟩
          have hval : TF_IDF Sym.log E (some { Index := some index }) term docID
              = Sym.mul
                  (Sym.div (Sym.ofNat (termCountInDoc postings docID))
                    (Sym.ofNat (scanIndex index docID).1))
                  (Sym.log
                    (Sym.div (Sym.ofNat (scanIndex index docID).2.card)
                      (Sym.ofNat (docFreqSet postings).card))) := by
            simp only [TF_IDF, hkey, if_neg hc, if_neg hT]
            rfl
          rw [hval]
          have hdiv : (Sym.mul
                  (Sym.div (Sym.ofNat (termCountInDoc postings docID))
                    (Sym.ofNat (scanIndex index docID).1))
                  (Sym.log
                    (Sym.div (Sym.ofNat (scanIndex index docID).2.card)
                      (Sym.ofNat (docFreqSet postings).card)))).divisors
              = [Sym.ofNat (scanIndex index docID).1,
                  Sym.ofNat (docFreqSet postings).card] := by
            simp [Sym.divisors]
          rw [hdiv]
          constructor
          · intro b hb
            rcases List.mem_cons.mp hb with rfl | hb
            · exact ⟨_, Nat.one_le_iff_ne_zero.mpr hT, rfl⟩
            · rw [List.mem_singleton] at hb
              exact ⟨_, hd, hb⟩
          · exact Or.inr ⟨index, postings, rfl, hkey, hc, rfl,
              Nat.one_le_iff_ne_zero.mpr hT, hd⟩

theorem TF_IDF_never_divides_by_zero_witness :
    Sym.ofNat 3 ∈ (TF_IDF Sym.log asciiEnv
        (some { Index := some [("a", [1, 1]), ("b", [2, 1])] }) "A" 1).divisors ∧
    (∃ n : Nat, 1 ≤ n ∧ Sym.ofNat 3 = Sym.ofNat n) ∧
    (TF_IDF Sym.log asciiEnv
        (some { Index := some [("a", [1, 1]), ("b", [2, 1])] }) "A" 1).divisors
      = [Sym.ofNat 3, Sym.ofNat 1] ∧
    (TF_IDF Sym.log asciiEnv
        (some { Index := some [("a", [1, 1]), ("b", [2, 1])] }) "B" 3).divisors = [] :=
  ⟨by decide,
    (TF_IDF_never_divides_by_zero asciiEnv
      (some { Index := some [("a", [1, 1]), ("b", [2, 1])] }) "A" 1).1 (Sym.ofNat 3) (by decide),
    by decide, by decide⟩

/-- C17: for every map, term and identifier passing the numerator guard (the
lower-cased term is a key whose posting list holds `docID`, `c ≥ 1` times), the
total `T` computed by the scan satisfies `c ≤ T`, so the second guard does not
fire; over the reals the term frequency `c / T` lies in `(0, 1]` and the score
is at most `log N`, with `N` the size of `docsSet`. -/
theorem TF_IDF_le_log_corpus (E : Env) (index : IndexMap) (term : String) (docID : Int)
    (postings : List Int)
    (hkey : mapGet index (ToLower E term) = some postings)
    (hcount : 1 ≤ termCountInDoc postings docID) :
    termCountInDoc postings docID ≤ (scanIndex index docID).1 ∧
    (scanIndex index docID).1 ≠ 0 ∧
    (0 : ℝ) < (termCountInDoc postings docID : ℝ) / ((scanIndex index docID).1 : ℝ) ∧
    (termCountInDoc postings docID : ℝ) / ((scanIndex index docID).1 : ℝ) ≤ 1 ∧
    TF_IDF Real.log E (some { Index := some index }) term docID
      ≤ Real.log ((scanIndex index docID).2.card : ℝ) := by
  have hc0 := hcount
  rw [termCountInDoc_eq_count] at hc0
  have hT := mapGet_count_le index _ postings hkey docID
  have hmem : docID ∈ postings := List.count_pos_iff.mp hc0
  have hd : 1 ≤ postings.toFinset.card :=
    Finset.card_pos.mpr ⟨docID, List.mem_toFinset.mpr hmem⟩
  have hdN : postings.toFinset.card ≤ (allPostings index).toFinset.card :=
    Finset.card_le_card (mapGet_subset index _ postings hkey)
  have hcR : (0 : ℝ) < (postings.count docID : ℝ) := by exact_mod_cast hc0
  have hTR : (0 : ℝ) < ((allPostings index).count docID : ℝ) := by
    exact_mod_cast (lt_of_lt_of_le hc0 hT)
  have hcT : (postings.count docID : ℝ) ≤ ((allPostings index).count docID : ℝ) := by
    exact_mod_cast hT
  have hdR : (1 : ℝ) ≤ (postings.toFinset.card : ℝ) := by exact_mod_cast hd
  have hdNR : (postings.toFinset.card : ℝ) ≤ ((allPostings index).toFinset.card : ℝ) := by
    exact_mod_cast hdN
  have hNpos : (0 : ℝ) < ((allPostings index).toFinset.card : ℝ) := by linarith
  have htf1 : (postings.count docID : ℝ) / ((allPostings index).count docID : ℝ) ≤ 1 :=
    (div_le_one hTR).mpr hcT
  have htf0 : (0 : ℝ) < (postings.count docID : ℝ) / ((allPostings index).count docID : ℝ) :=
    div_pos hcR hTR
  have hratio1 : (1 : ℝ) ≤ ((allPostings index).toFinset.card : ℝ) / (postings.toFinset.card : ℝ) := by
    rw [one_le_div (by linarith)]
    exact hdNR
  have hratioN : ((allPostings index).toFinset.card : ℝ) / (postings.toFinset.card : ℝ)
      ≤ ((allPostings index).toFinset.card : ℝ) :=
    div_le_self hNpos.le hdR
  have hidf0 : 0 ≤ Real.log
      (((allPostings index).toFinset.card : ℝ) / (postings.toFinset.card : ℝ)) :=
    Real.log_nonneg hratio1
  have hidfN : Real.log
      (((allPostings index).toFinset.card : ℝ) / (postings.toFinset.card : ℝ))
      ≤ Real.log ((allPostings index).toFinset.card : ℝ) :=
    Real.log_le_log (by linarith) hratioN
  rw [TF_IDF_eq_score, termCountInDoc_eq_count, scanIndex_eq]
  simp only [mapGetD, hkey, Option.getD_some, score]
  refine ⟨hT, by omega, htf0, htf1, ?_⟩
  rw [if_neg (by omega), if_neg (by omega)]
  calc (postings.count docID : ℝ) / ((allPostings index).count docID : ℝ)
        * Real.log (((allPostings index).toFinset.card : ℝ) / (postings.toFinset.card : ℝ))
      ≤ 1 * Real.log
          (((allPostings index).toFinset.card : ℝ) / (postings.toFinset.card : ℝ)) :=
        mul_le_mul_of_nonneg_right htf1 hidf0
    _ = Real.log (((allPostings index).toFinset.card : ℝ) / (postings.toFinset.card : ℝ)) :=
        one_mul _
    _ ≤ Real.log ((allPostings index).toFinset.card : ℝ) := hidfN

theorem TF_IDF_le_log_corpus_witness :
    mapGet [("a", [1, 2]), ("b", [1, 3])] (ToLower asciiEnv "a") = some [1, 2] ∧
    1 ≤ termCountInDoc [1, 2] 1 ∧
    termCountInDoc [1, 2] 1 ≤ (scanIndex [("a", [1, 2]), ("b", [1, 3])] 1).1 ∧
    TF_IDF Real.log asciiEnv (some { Index := some [("a", [1, 2]), ("b", [1, 3])] }) "a" 1
      ≤ Real.log ((scanIndex [("a", [1, 2]), ("b", [1, 3])] 1).2.card : ℝ) :=
  ⟨by decide, by decide,
    (TF_IDF_le_log_corpus asciiEnv [("a", [1, 2]), ("b", [1, 3])] "a" 1 [1, 2]
      (by decide) (by decide)).1,
    (TF_IDF_le_log_corpus asciiEnv [("a", [1, 2]), ("b", [1, 3])] "a" 1 [1, 2]
      (by decide) (by decide)).2.2.2.2⟩

/-- C19: building distributes over concatenation for searches: `Search(q)` on
the index built from `a ++ b` is `Search(q)` on the index built from `a`
followed by `Search(q)` on the index built from `b`. -/
theorem Search_Add_append (E : Env) (ii : InvertedIndex) (a b : List Document) (q : String) :
    Search E (Add E ii (a ++ b)).1 q
      = Search E (Add E ii a).1 q ++ Search E (Add E ii b).1 q := by
  simp only [Add]
  rw [Search_eq_mapGetD, Search_eq_mapGetD, Search_eq_mapGetD, mapGetD_addLoop,
    mapGetD_addLoop, mapGetD_addLoop]
  simp [occurrences, List.flatMap_append]

/-! ## Runes, fields and raw tokens -/

theorem isWordChar_iff (c : Char) : isWordChar c = true ↔ (c.isAlphanum = true ∨ c = '_') := by
  simp only [isWordChar, Char.isAlphanum, Char.isAlpha, Char.isUpper, Char.isLower, Char.isDigit,
    Bool.or_eq_true, Bool.and_eq_true, decide_eq_true_eq, Char.le_def, ge_iff_le]
  have h0 : ('0' : Char).val = 48 := rfl
  have h9 : ('9' : Char).val = 57 := rfl
  have hA : ('A' : Char).val = 65 := rfl
  have hZ : ('Z' : Char).val = 90 := rfl
  have ha : ('a' : Char).val = 97 := rfl
  have hz : ('z' : Char).val = 122 := rfl
  rw [h0, h9, hA, hZ, ha, hz]
  tauto

theorem tokenize_eq_map (E : Env) (content : String) :
    tokenize E content = (rawTokens E content).map (stemOrSelf E) := by
  have h : ∀ (l : List String) (acc : List String),
      l.foldl (fun steammedTokens token => steammedTokens ++ [stemOrSelf E token]) acc
        = acc ++ l.map (stemOrSelf E) := by
    intro l
    induction l with
    | nil => simp
    | cons a l ih => intro acc; rw [List.foldl_cons, ih]; simp
  simp only [tokenize, rawTokens]
  rw [h]; simp

theorem isSpace_of_isRegexSpace (c : Char) (h : isRegexSpace c = true) : isSpace c = true := by
  simp only [isRegexSpace, Bool.or_eq_true, decide_eq_true_eq] at h
  simp only [isSpace, Bool.or_eq_true, decide_eq_true_eq]
  tauto

theorem isSpace_eq_false_of_isWordChar (c : Char) (h : isWordChar c = true) :
    isSpace c = false := by
  simp only [isWordChar, Bool.or_eq_true, Bool.and_eq_true, decide_eq_true_eq, Char.le_def] at h
  have h0 : ('0' : Char).val = 48 := rfl
  have h9 : ('9' : Char).val = 57 := rfl
  have hA : ('A' : Char).val = 65 := rfl
  have hZ : ('Z' : Char).val = 90 := rfl
  have ha : ('a' : Char).val = 97 := rfl
  have hz : ('z' : Char).val = 122 := rfl
  rw [h0, h9, hA, hZ, ha, hz] at h
  have hn : (48 ≤ c.toNat ∧ c.toNat ≤ 57) ∨ (65 ≤ c.toNat ∧ c.toNat ≤ 90)
      ∨ (97 ≤ c.toNat ∧ c.toNat ≤ 122) ∨ c.toNat = 95 := by
    rcases h with ((h | h) | h) | h
    · left; exact ⟨UInt32.le_def.mp h.1, UInt32.le_def.mp h.2⟩
    · right; left; exact ⟨UInt32.le_def.mp h.1, UInt32.le_def.mp h.2⟩
    · right; right; left; exact ⟨UInt32.le_def.mp h.1, UInt32.le_def.mp h.2⟩
    · right; right; right; rw [h]; rfl
  have e1 : c ≠ '\t' := by rintro rfl; revert hn; decide
  have e2 : c ≠ '\n' := by rintro rfl; revert hn; decide
  have e3 : c ≠ '\x0b' := by rintro rfl; revert hn; decide
  have e4 : c ≠ '\x0c' := by rintro rfl; revert hn; decide
  have e5 : c ≠ '\r' := by rintro rfl; revert hn; decide
  have e6 : c ≠ ' ' := by rintro rfl; revert hn; decide
  simp only [isSpace, e1, e2, e3, e4, e5, e6, decide_False, Bool.false_or, Bool.or_eq_false_iff,
    decide_eq_false_iff_not, Bool.and_eq_false_imp, decide_eq_true_eq]
  omega

theorem fieldsAux_no_space (w cur : List Char) (h : ∀ c ∈ w, isSpace c = false) :
    fieldsAux w cur
      = if cur.reverse ++ w = [] then [] else [String.mk (cur.reverse ++ w)] := by
  induction w generalizing cur with
  | nil => simp [fieldsAux]
  | cons c cs ih =>
    have hc : isSpace c = false := h c (List.mem_cons_self _ _)
    have hcs : ∀ x ∈ cs, isSpace x = false := fun x hx => h x (List.mem_cons_of_mem _ hx)
    simp only [fieldsAux, hc, Bool.false_eq_true, if_false]
    rw [ih (c :: cur) hcs]
    simp

theorem fieldsAux_all_space (l : List Char) (h : ∀ c ∈ l, isSpace c = true) :
    fieldsAux l [] = [] := by
  induction l with
  | nil => simp [fieldsAux]
  | cons c cs ih =>
    have hc : isSpace c = true := h c (List.mem_cons_self _ _)
    have hcs : ∀ x ∈ cs, isSpace x = true := fun x hx => h x (List.mem_cons_of_mem _ hx)
    simp only [fieldsAux, hc, if_true]
    exact ih hcs

theorem replaceNonWord_of_word (w : List Char) (h : ∀ c ∈ w, isWordChar c = true) :
    replaceNonWord w = w := by
  unfold replaceNonWord
  conv_rhs => rw [← List.map_id w]
  apply List.map_congr_left
  intro c hc
  simp [h c hc]

theorem tokenize_eq_nil_of_blank (E : Env) (hsp : ∀ c, isSpace c = true → E.toLowerRune c = c)
    (content : String) (hblank : content.data.all isSpace = true) :
    tokenize E content = [] := by
  rw [List.all_eq_true] at hblank
  rw [tokenize_eq_map]
  have hlow : (ToLower E content).data = content.data := by
    simp only [ToLower]
    conv_rhs => rw [← List.map_id content.data]
    apply List.map_congr_left
    intro c hc
    simp [hsp c (hblank c hc)]
  have hrep : ∀ c ∈ replaceNonWord content.data, isSpace c = true := by
    intro c hc
    simp only [replaceNonWord, List.mem_map] at hc
    obtain ⟨x, hx, rfl⟩ := hc
    by_cases hk : (isWordChar x || isRegexSpace x) = true
    · rw [if_pos hk]; exact hblank x hx
    · rw [if_neg hk]; decide
  simp only [rawTokens, hlow, Fields]
  rw [fieldsAux_all_space _ hrep]
  rfl

theorem docPairs_filter_blank (E : Env) (hsp : ∀ c, isSpace c = true → E.toLowerRune c = c)
    (docs : List Document) :
    docPairs E (docs.filter (fun doc => !(doc.Content.data.all isSpace))) = docPairs E docs := by
  induction docs with
  | nil => rfl
  | cons doc rest ih =>
    have ih' : (List.filter (fun doc => !(doc.Content.data.all isSpace)) rest).flatMap
          (fun doc => (tokenize E doc.Content).map fun token => (token, doc.ID))
        = rest.flatMap (fun doc => (tokenize E doc.Content).map fun token => (token, doc.ID)) :=
      ih
    by_cases hb : doc.Content.data.all isSpace = true
    · simp only [docPairs, List.filter_cons, hb, Bool.not_true, Bool.false_eq_true, if_false,
        List.flatMap_cons, tokenize_eq_nil_of_blank E hsp doc.Content hb, List.map_nil,
        List.nil_append, ih']
    · simp only [docPairs, List.filter_cons, hb, Bool.not_false, if_true, List.flatMap_cons, ih']

theorem toLower_of_isSpace (c : Char) (h : isSpace c = true) : Char.toLower c = c := by
  have hn : ¬ (65 ≤ c.toNat ∧ c.toNat ≤ 90) := by
    simp only [isSpace, Bool.or_eq_true, Bool.and_eq_true, decide_eq_true_eq] at h
    rcases h with ((((((((((((((h | h) | h) | h) | h) | h) | h) | h) | h) | h) | h) | h) | h) | h) | h)
    all_goals first
      | (subst h; decide)
      | omega
  simp only [Char.toLower, ge_iff_le]
  rw [if_neg hn]

/-! ## The tokenizer -/

/-- C13, as stated, fails: the vertical tab is whitespace and is replaced with
a space, and the letter `é` is replaced with a space, so that the word `café`
is shortened to `caf`. -/
theorem replaceNonWord_counterexample :
    isSpace '\x0b' = true ∧ replaceNonWord ['\x0b'] = [' '] ∧
    replaceNonWord "café".data = "caf ".data ∧
    tokenize asciiEnv "café au lait" = ["caf", "au", "lait"] := by
  decide

/-- C13, amended: the normalization step keeps the length of the text; at each
position it leaves an ASCII letter, an ASCII digit, an underscore, a tab, a line
feed, a form feed, a carriage return and a space unchanged, and writes one
space over every other character; a non-empty word made of ASCII letters,
ASCII digits and underscores is therefore the only field of its normalization. -/
theorem replaceNonWord_spec (text : List Char) :
    (replaceNonWord text).length = text.length ∧
    (∀ (i : Nat) (c : Char), text[i]? = some c →
      ((c.isAlphanum = true ∨ c = '_' ∨ c = '\t' ∨ c = '\n' ∨ c = '\x0c' ∨ c = '\r' ∨ c = ' ') →
        (replaceNonWord text)[i]? = some c) ∧
      (¬ (c.isAlphanum = true ∨ c = '_' ∨ c = '\t' ∨ c = '\n' ∨ c = '\x0c' ∨ c = '\r' ∨ c = ' ') →
        (replaceNonWord text)[i]? = some ' ')) ∧
    (text ≠ [] → (∀ c ∈ text, c.isAlphanum = true ∨ c = '_') →
      Fields (replaceNonWord text) = [String.mk text]) := by
  refine ⟨by simp [replaceNonWord], ?_, ?_⟩
  · intro i c hc
    have hkeep : (isWordChar c || isRegexSpace c) = true
        ↔ (c.isAlphanum = true ∨ c = '_' ∨ c = '\t' ∨ c = '\n' ∨ c = '\x0c' ∨ c = '\r'
            ∨ c = ' ') := by
      rw [Bool.or_eq_true, isWordChar_iff]
      simp only [isRegexSpace, Bool.or_eq_true, decide_eq_true_eq]
      tauto
    constructor
    · intro h
      simp only [replaceNonWord, List.getElem?_map, hc, Option.map_some', if_pos (hkeep.mpr h)]
    · intro h
      have hk : ¬ (isWordChar c || isRegexSpace c) = true := fun hk => h (hkeep.mp hk)
      simp only [replaceNonWord, List.getElem?_map, hc, Option.map_some', if_neg hk]
  · intro hne hword
    have hw : ∀ c ∈ text, isWordChar c = true := fun c hc => (isWordChar_iff c).mpr (hword c hc)
    rw [replaceNonWord_of_word text hw]
    unfold Fields
    rw [fieldsAux_no_space text [] (fun c hc => isSpace_eq_false_of_isWordChar c (hw c hc))]
    simp [hne]

theorem replaceNonWord_spec_witness :
    ("a-b".data)[1]? = some '-' ∧
    (replaceNonWord "a-b".data)[1]? = some ' ' ∧
    "fox_2".data ≠ [] ∧ (∀ c ∈ "fox_2".data, c.isAlphanum = true ∨ c = '_') ∧
    Fields (replaceNonWord "fox_2".data) = [String.mk "fox_2".data] :=
  ⟨by decide,
    ((replaceNonWord_spec "a-b".data).2.1 1 '-' (by decide)).2 (by decide),
    by decide, by decide,
    (replaceNonWord_spec "fox_2".data).2.2 (by decide) (by decide)⟩

/-- C14: for every text and every stemmer, `tokenize` returns one term per raw
token of the normalized text, in the same order; the term at position `i` is
the stem of raw token `i` when the stemmer succeeds on it and raw token `i`
itself when the stemmer fails on it; and it depends on the stemmer only through
its answer on raw token `i`, so a failure elsewhere changes nothing there. -/
theorem tokenize_one_term_per_token (E : Env) (content : String) :
    (tokenize E content).length = (rawTokens E content).length ∧
    (∀ (i : Nat) (token : String), (rawTokens E content)[i]? = some token →
      (∀ stemmed : String, E.stem token = some stemmed →
        (tokenize E content)[i]? = some stemmed) ∧
      (E.stem token = none → (tokenize E content)[i]? = some token) ∧
      (∀ otherStem : String → Option String, otherStem token = E.stem token →
        (tokenize { toLowerRune := E.toLowerRune, stem := otherStem } content)[i]?
          = (tokenize E content)[i]?)) := by
  rw [tokenize_eq_map]
  refine ⟨by simp, ?_⟩
  intro i token hi
  refine ⟨?_, ?_, ?_⟩
  · intro stemmed hs
    simp [List.getElem?_map, hi, stemOrSelf, hs]
  · intro hs
    simp [List.getElem?_map, hi, stemOrSelf, hs]
  · intro otherStem hs
    have hraw : rawTokens { toLowerRune := E.toLowerRune, stem := otherStem } content
        = rawTokens E content := rfl
    rw [tokenize_eq_map, hraw]
    simp [List.getElem?_map, hi, stemOrSelf, hs]

theorem tokenize_one_term_per_token_witness :
    (rawTokens sampleEnv "Lazy dogs!")[0]? = some "lazy" ∧
    sampleEnv.stem "lazy" = some "lazi" ∧
    (tokenize sampleEnv "Lazy dogs!")[0]? = some "lazi" ∧
    (rawTokens asciiEnv "Lazy dogs!")[1]? = some "dogs" ∧
    asciiEnv.stem "dogs" = none ∧
    (tokenize asciiEnv "Lazy dogs!")[1]? = some "dogs" :=
  ⟨by decide, by decide,
    ((tokenize_one_term_per_token sampleEnv "Lazy dogs!").2 0 "lazy" (by decide)).1 "lazi"
      (by decide),
    by decide, by decide,
    ((tokenize_one_term_per_token asciiEnv "Lazy dogs!").2 1 "dogs" (by decide)).2.1
      (by decide)⟩

/-- C15: with a lower-casing that leaves whitespace runes unchanged, documents
whose content is empty or made of whitespace only contribute nothing: `Add`
gives the same receiver and the same map as on the list without them; and
`Add` of the empty list stores and returns the map without keys. -/
theorem Add_ignores_blank_documents (E : Env)
    (hsp : ∀ c, isSpace c = true → E.toLowerRune c = c)
    (ii : InvertedIndex) (docs : List Document) :
    Add E ii docs = Add E ii (docs.filter (fun doc => !(doc.Content.data.all isSpace))) ∧
    Add E ii [] = ({ Index := some [] }, []) := by
  refine ⟨?_, rfl⟩
  simp only [Add]
  rw [addLoop_eq_foldl, addLoop_eq_foldl, docPairs_filter_blank E hsp]

theorem Add_ignores_blank_documents_witness :
    (∀ c, isSpace c = true → asciiEnv.toLowerRune c = c) ∧
    Add asciiEnv { Index := none } [⟨1, "a"⟩, ⟨2, " \t\n"⟩, ⟨3, ""⟩, ⟨4, "b a"⟩]
      = Add asciiEnv { Index := none }
          (([⟨1, "a"⟩, ⟨2, " \t\n"⟩, ⟨3, ""⟩, ⟨4, "b a"⟩] : List Document).filter
            (fun doc => !(doc.Content.data.all isSpace))) :=
  ⟨toLower_of_isSpace,
    (Add_ignores_blank_documents asciiEnv (toLower_of_isSpace)
      { Index := none } [⟨1, "a"⟩, ⟨2, " \t\n"⟩, ⟨3, ""⟩, ⟨4, "b a"⟩]).1⟩

/-! ## The keys of the built map -/

theorem mapKeys_mapSet (m : IndexMap) (k : String) (v : List Int) :
    mapKeys (mapSet m k v) = if k ∈ mapKeys m then mapKeys m else mapKeys m ++ [k] := by
  induction m with
  | nil => simp [mapSet, mapKeys]
  | cons e rest ih =>
    obtain ⟨k', w⟩ := e
    have ih' : List.map (fun entry => entry.1) (mapSet rest k v)
        = if k ∈ List.map (fun entry => entry.1) rest then List.map (fun entry => entry.1) rest
          else List.map (fun entry => entry.1) rest ++ [k] := ih
    by_cases h : k' = k
    · subst h
      simp [mapSet, mapKeys]
    · have h2 : ¬ k = k' := fun e => h e.symm
      simp only [mapSet, if_neg h, mapKeys, List.map_cons, ih', List.mem_cons, h2, false_or]
      split_ifs <;> simp

theorem mapKeys_nodup_mapSet (m : IndexMap) (k : String) (v : List Int)
    (h : (mapKeys m).Nodup) : (mapKeys (mapSet m k v)).Nodup := by
  rw [mapKeys_mapSet]
  split_ifs with hk
  · exact h
  · rw [List.nodup_append]
    refine ⟨h, List.nodup_singleton k, ?_⟩
    intro x hx hx2
    rw [List.mem_singleton] at hx2
    subst hx2
    exact hk hx

theorem mem_of_mapGet (m : IndexMap) (k : String) (ps : List Int)
    (h : mapGet m k = some ps) : (k, ps) ∈ m := by
  induction m with
  | nil => simp [mapGet] at h
  | cons e rest ih =>
    obtain ⟨k', w⟩ := e
    by_cases hk : k' = k
    · simp only [mapGet, if_pos hk, Option.some.injEq] at h
      subst hk; subst h
      exact List.mem_cons_self _ _
    · simp only [mapGet, if_neg hk] at h
      exact List.mem_cons_of_mem _ (ih h)

theorem mapGet_of_mem (m : IndexMap) (k : String) (ps : List Int)
    (hnd : (mapKeys m).Nodup) (h : (k, ps) ∈ m) : mapGet m k = some ps := by
  induction m with
  | nil => simp at h
  | cons e rest ih =>
    obtain ⟨k', w⟩ := e
    simp only [mapKeys, List.map_cons, List.nodup_cons] at hnd
    rcases List.mem_cons.mp h with heq | hmem
    · simp only [Prod.mk.injEq] at heq
      obtain ⟨rfl, rfl⟩ := heq
      simp [mapGet]
    · have hk : k' ≠ k := by
        rintro rfl
        exact hnd.1 (List.mem_map.mpr ⟨(k', ps), hmem, rfl⟩)
      simp only [mapGet, if_neg hk]
      exact ih hnd.2 hmem

theorem mapGet_ne_none_iff (m : IndexMap) (k : String) :
    mapGet m k ≠ none ↔ k ∈ mapKeys m := by
  induction m with
  | nil => simp [mapGet, mapKeys]
  | cons e rest ih =>
    obtain ⟨k', w⟩ := e
    have ih' : mapGet rest k ≠ none ↔ k ∈ List.map (fun entry => entry.1) rest := ih
    by_cases hk : k' = k
    · subst hk; simp [mapGet, mapKeys]
    · have h2 : ¬ k = k' := fun e => hk e.symm
      simp only [mapGet, if_neg hk, mapKeys, List.map_cons, List.mem_cons, h2, false_or, ih']

theorem mapKeys_foldl_pairs (pairs : List (String × Int)) (m : IndexMap) (k : String) :
    k ∈ mapKeys (pairs.foldl (fun m p => appendPosting m p.1 p.2) m)
      ↔ k ∈ mapKeys m ∨ ∃ p ∈ pairs, p.1 = k := by
  induction pairs generalizing m with
  | nil => simp
  | cons p rest ih =>
    rw [List.foldl_cons, ih]
    simp only [appendPosting, mapKeys_mapSet]
    split_ifs with hp
    · constructor
      · rintro (h | ⟨q, hq, rfl⟩)
        · exact Or.inl h
        · exact Or.inr ⟨q, List.mem_cons_of_mem _ hq, rfl⟩
      · rintro (h | ⟨q, hq, rfl⟩)
        · exact Or.inl h
        · rcases List.mem_cons.mp hq with rfl | hq
          · exact Or.inl hp
          · exact Or.inr ⟨q, hq, rfl⟩
    · constructor
      · rintro (h | ⟨q, hq, rfl⟩)
        · rcases List.mem_append.mp h with h | h
          · exact Or.inl h
          · rw [List.mem_singleton] at h
            exact Or.inr ⟨p, List.mem_cons_self _ _, h.symm⟩
        · exact Or.inr ⟨q, List.mem_cons_of_mem _ hq, rfl⟩
      · rintro (h | ⟨q, hq, rfl⟩)
        · exact Or.inl (List.mem_append_left _ h)
        · rcases List.mem_cons.mp hq with rfl | hq
          · exact Or.inl (List.mem_append_right _ (List.mem_singleton_self _))
          · exact Or.inr ⟨q, hq, rfl⟩

theorem mapKeys_nodup_foldl_pairs (pairs : List (String × Int)) (m : IndexMap)
    (h : (mapKeys m).Nodup) :
    (mapKeys (pairs.foldl (fun m p => appendPosting m p.1 p.2) m)).Nodup := by
  induction pairs generalizing m with
  | nil => exact h
  | cons p rest ih =>
    rw [List.foldl_cons]
    exact ih _ (mapKeys_nodup_mapSet m p.1 _ h)

theorem mapKeys_nodup_addLoop (E : Env) (docs : List Document) :
    (mapKeys (addLoop E [] docs)).Nodup := by
  rw [addLoop_eq_foldl]
  exact mapKeys_nodup_foldl_pairs _ [] List.nodup_nil

theorem mem_mapKeys_addLoop (E : Env) (docs : List Document) (k : String) :
    k ∈ mapKeys (addLoop E [] docs) ↔ ∃ doc ∈ docs, k ∈ tokenize E doc.Content := by
  rw [addLoop_eq_foldl, mapKeys_foldl_pairs]
  simp only [mapKeys, List.map_nil, List.not_mem_nil, false_or, docPairs, List.mem_flatMap,
    List.mem_map]
  constructor
  · rintro ⟨p, ⟨doc, hdoc, t, ht, rfl⟩, rfl⟩
    exact ⟨doc, hdoc, ht⟩
  · rintro ⟨doc, hdoc, ht⟩
    exact ⟨(k, doc.ID), ⟨doc, hdoc, k, ht, rfl⟩, rfl⟩

/-- The entries of the map built by `Add`: each key with its occurrence list,
for the keys that occur. -/
theorem mem_addLoop_iff (E : Env) (docs : List Document) (k : String) (ps : List Int) :
    (k, ps) ∈ addLoop E [] docs ↔ ps = occurrences E docs k ∧ ps ≠ [] := by
  constructor
  · intro h
    have hget := mapGet_of_mem _ k ps (mapKeys_nodup_addLoop E docs) h
    have hps : ps = occurrences E docs k := by
      rw [← mapGetD_addLoop, mapGetD, hget]; rfl
    refine ⟨hps, ?_⟩
    have hk : k ∈ mapKeys (addLoop E [] docs) := List.mem_map.mpr ⟨(k, ps), h, rfl⟩
    obtain ⟨doc, hdoc, ht⟩ := (mem_mapKeys_addLoop E docs k).mp hk
    have : doc.ID ∈ occurrences E docs k := (mem_occurrences E docs k doc.ID).mpr
      ⟨doc, hdoc, rfl, ht⟩
    rw [hps]
    exact List.ne_nil_of_mem this
  · rintro ⟨hps, hne⟩
    obtain ⟨id, hid⟩ := List.exists_mem_of_ne_nil _ hne
    rw [hps] at hid
    obtain ⟨doc, hdoc, _, ht⟩ := (mem_occurrences E docs k id).mp hid
    have hk : k ∈ mapKeys (addLoop E [] docs) := (mem_mapKeys_addLoop E docs k).mpr
      ⟨doc, hdoc, ht⟩
    have hsome := (mapGet_ne_none_iff _ k).mpr hk
    cases hget : mapGet (addLoop E [] docs) k with
    | none => exact absurd hget hsome
    | some ps' =>
      have : ps' = occurrences E docs k := by
        rw [← mapGetD_addLoop, mapGetD, hget]; rfl
      rw [hps, ← this]
      exact mem_of_mapGet _ k ps' hget

theorem occurrences_pairwise (E : Env) (docs : List Document) (term : String)
    (h : (docs.map (fun doc => doc.ID)).Pairwise (fun a b => a ≤ b)) :
    (occurrences E docs term).Pairwise (fun a b => a ≤ b) := by
  induction docs with
  | nil => simp [occurrences]
  | cons doc rest ih =>
    rw [List.map_cons, List.pairwise_cons] at h
    have ih' := ih h.2
    have hcons : occurrences E (doc :: rest) term
        = ((tokenize E doc.Content).filter (fun token => token = term)).map (fun _ => doc.ID)
          ++ occurrences E rest term := by
      simp [occurrences]
    rw [hcons, List.pairwise_append]
    refine ⟨?_, ih', ?_⟩
    · rw [List.pairwise_map]
      exact List.pairwise_of_forall (fun _ _ => le_refl _)
    · intro a ha b hb
      obtain ⟨_, _, rfl⟩ := List.mem_map.mp ha
      obtain ⟨d, hd, rfl, _⟩ := (mem_occurrences E rest term b).mp hb
      exact h.1 d.ID (List.mem_map.mpr ⟨d, hd, rfl⟩)

/-! ## Shape of the built index -/

/-- C18: the map stored and returned by `Add(docs)` is well formed: its keys
are pairwise distinct, every key has a non-empty posting list, every key is a
term of the token list of some document of `docs`, and every identifier of a
posting list is the identifier of some document of `docs`. -/
theorem Add_well_formed (E : Env) (ii : InvertedIndex) (docs : List Document) :
    (Add E ii docs).1.Index = some (Add E ii docs).2 ∧
    (mapKeys (Add E ii docs).2).Nodup ∧
    ∀ (k : String) (postings : List Int), (k, postings) ∈ (Add E ii docs).2 →
      postings ≠ [] ∧
      (∃ doc ∈ docs, k ∈ tokenize E doc.Content) ∧
      (∀ id ∈ postings, ∃ doc ∈ docs, doc.ID = id) := by
  refine ⟨rfl, mapKeys_nodup_addLoop E docs, ?_⟩
  intro k postings hmem
  have hmem' : (k, postings) ∈ addLoop E [] docs := hmem
  obtain ⟨hps, hne⟩ := (mem_addLoop_iff E docs k postings).mp hmem'
  refine ⟨hne, ?_, ?_⟩
  · exact (mem_mapKeys_addLoop E docs k).mp (List.mem_map.mpr ⟨(k, postings), hmem', rfl⟩)
  · intro id hid
    rw [hps] at hid
    obtain ⟨doc, hdoc, hID, _⟩ := (mem_occurrences E docs k id).mp hid
    exact ⟨doc, hdoc, hID⟩

theorem Add_well_formed_witness :
    (("b", [1, 2]) : String × List Int) ∈
      (Add asciiEnv { Index := none } [⟨1, "a b"⟩, ⟨2, "B"⟩]).2 ∧
    ([1, 2] : List Int) ≠ [] ∧
    (∃ doc ∈ ([⟨1, "a b"⟩, ⟨2, "B"⟩] : List Document), "b" ∈ tokenize asciiEnv doc.Content) :=
  ⟨by decide,
    ((Add_well_formed asciiEnv { Index := none } [⟨1, "a b"⟩, ⟨2, "B"⟩]).2.2 "b" [1, 2]
      (by decide)).1,
    ((Add_well_formed asciiEnv { Index := none } [⟨1, "a b"⟩, ⟨2, "B"⟩]).2.2 "b" [1, 2]
      (by decide)).2.1⟩

/-- C20: when the identifiers of `docs` are non-decreasing in input order,
every posting list of the map built by `Add(docs)` is non-decreasing, and so is
every `Search` result on it. -/
theorem Add_postings_sorted (E : Env) (ii : InvertedIndex) (docs : List Document)
    (hsorted : (docs.map (fun doc => doc.ID)).Pairwise (fun a b => a ≤ b)) :
    (∀ (k : String) (postings : List Int), (k, postings) ∈ (Add E ii docs).2 →
      postings.Pairwise (fun a b => a ≤ b)) ∧
    (∀ q : String, (Search E (Add E ii docs).1 q).Pairwise (fun a b => a ≤ b)) := by
  constructor
  · intro k postings hmem
    have hmem' : (k, postings) ∈ addLoop E [] docs := hmem
    rw [((mem_addLoop_iff E docs k postings).mp hmem').1]
    exact occurrences_pairwise E docs k hsorted
  · intro q
    simp only [Add]
    rw [Search_eq_mapGetD, mapGetD_addLoop]
    exact occurrences_pairwise E docs _ hsorted

theorem Add_postings_sorted_witness :
    (([⟨1, "a b a"⟩, ⟨1, "b"⟩, ⟨4, "a"⟩] : List Document).map (fun doc => doc.ID)).Pairwise
        (fun a b => a ≤ b) ∧
    (Search asciiEnv (Add asciiEnv { Index := none }
        [⟨1, "a b a"⟩, ⟨1, "b"⟩, ⟨4, "a"⟩]).1 "A").Pairwise (fun a b => a ≤ b) :=
  ⟨by decide,
    (Add_postings_sorted asciiEnv { Index := none } [⟨1, "a b a"⟩, ⟨1, "b"⟩, ⟨4, "a"⟩]
      (by decide)).2 "A"⟩

/-! ## ASCII documents -/

theorem ToLower_ascii (E : Env) (hlow : ∀ c : Char, c.toNat < 128 → E.toLowerRune c = c.toLower)
    (s : String) (hs : ∀ c ∈ s.data, c.toNat < 128) :
    ToLower E s = ToLower asciiEnv s := by
  simp only [ToLower, asciiEnv]
  congr 1
  apply List.map_congr_left
  intro c hc
  exact hlow c (hs c hc)

theorem rawTokens_ascii (E : Env)
    (hlow : ∀ c : Char, c.toNat < 128 → E.toLowerRune c = c.toLower)
    (s : String) (hs : ∀ c ∈ s.data, c.toNat < 128) :
    rawTokens E s = rawTokens asciiEnv s := by
  simp only [rawTokens, ToLower_ascii E hlow s hs]

theorem tokenize_asciiEnv (content : String) :
    tokenize asciiEnv content = rawTokens asciiEnv content := by
  rw [tokenize_eq_map]
  conv_rhs => rw [← List.map_id (rawTokens asciiEnv content)]
  apply List.map_congr_left
  intro tok _
  rfl

theorem filter_stem_const (f : String → String) (t : String) (id : Int) (raw : List String)
    (h : ∀ tok ∈ raw, (f tok = t ↔ tok = t)) :
    ((raw.map f).filter (fun token => token = t)).map (fun _ => id)
      = (raw.filter (fun token => token = t)).map (fun _ => id) := by
  induction raw with
  | nil => rfl
  | cons a l ih =>
    have ha := h a (List.mem_cons_self _ _)
    have ih' := ih (fun tok htok => h tok (List.mem_cons_of_mem _ htok))
    by_cases hat : a = t
    · have hf : f a = t := ha.mpr hat
      rw [List.map_cons, List.filter_cons, List.filter_cons, if_pos (by simpa using hf),
        if_pos (by simpa using hat), List.map_cons, List.map_cons, ih']
    · have hf : ¬ f a = t := fun e => hat (ha.mp e)
      rw [List.map_cons, List.filter_cons, List.filter_cons, if_neg (by simpa using hf),
        if_neg (by simpa using hat), ih']

/-- On ASCII documents whose raw tokens the stemmer neither maps to `t` nor
away from `t`, the occurrences of `t` are those of the unstemmed corpus. -/
theorem occurrences_eq_ascii (E : Env)
    (hlow : ∀ c : Char, c.toNat < 128 → E.toLowerRune c = c.toLower)
    (docs : List Document) (t : String)
    (hascii : ∀ doc ∈ docs, ∀ c ∈ doc.Content.data, c.toNat < 128)
    (hstem : ∀ doc ∈ docs, ∀ tok ∈ rawTokens asciiEnv doc.Content,
      (stemOrSelf E tok = t ↔ tok = t)) :
    occurrences E docs t = occurrences asciiEnv docs t := by
  induction docs with
  | nil => rfl
  | cons doc rest ih =>
    have ih' := ih (fun d hd => hascii d (List.mem_cons_of_mem _ hd))
      (fun d hd => hstem d (List.mem_cons_of_mem _ hd))
    have hcons : ∀ E' : Env, occurrences E' (doc :: rest) t
        = ((tokenize E' doc.Content).filter (fun token => token = t)).map (fun _ => doc.ID)
          ++ occurrences E' rest t := by
      intro E'; simp [occurrences]
    rw [hcons, hcons, ih', tokenize_asciiEnv, tokenize_eq_map,
      rawTokens_ascii E hlow doc.Content (hascii doc (List.mem_cons_self _ _)),
      filter_stem_const (stemOrSelf E) t doc.ID _ (hstem doc (List.mem_cons_self _ _))]

theorem stemOrSelf_eq_iff (E : Env) (t tok : String) (ht : E.stem t = some t)
    (hother : tok ≠ t → E.stem tok ≠ some t) : stemOrSelf E tok = t ↔ tok = t := by
  constructor
  · intro h
    by_contra hne
    have hno := hother hne
    simp only [stemOrSelf] at h
    cases hs : E.stem tok with
    | none => rw [hs] at h; exact hne h
    | some s => rw [hs] at h hno; simp only at h; exact hno (by rw [h])
  · rintro rfl
    simp [stemOrSelf, ht]

theorem mainDocuments_ascii : ∀ doc ∈ mainDocuments, ∀ c ∈ doc.Content.data, c.toNat < 128 := by
  decide

theorem mapGet_addLoop (E : Env) (docs : List Document) (k : String)
    (h : occurrences E docs k ≠ []) :
    mapGet (addLoop E [] docs) k = some (occurrences E docs k) :=
  mapGet_of_mem _ k _ (mapKeys_nodup_addLoop E docs)
    ((mem_addLoop_iff E docs k _).mpr ⟨rfl, h⟩)

theorem occurrences_sample (E : Env)
    (hlow : ∀ c : Char, c.toNat < 128 → E.toLowerRune c = c.toLower) (t : String)
    (ht : E.stem t = some t)
    (hother : ∀ doc ∈ mainDocuments, ∀ tok ∈ rawTokens E doc.Content,
      tok ≠ t → E.stem tok ≠ some t) :
    occurrences E mainDocuments t = occurrences asciiEnv mainDocuments t := by
  apply occurrences_eq_ascii E hlow mainDocuments t mainDocuments_ascii
  intro doc hdoc tok htok
  rw [← rawTokens_ascii E hlow doc.Content (mainDocuments_ascii doc hdoc)] at htok
  exact stemOrSelf_eq_iff E t tok ht (hother doc hdoc tok htok)

/-! ## The sample corpus of `main` -/

/-- C16: on the sample corpus of `main`, with a lower-casing that is the ASCII
one on ASCII runes and a stemmer that maps `the` to `the` and no other raw
token of the corpus to `the`, `Search("the")` after `Add` is `[1, 1, 2, 3]`. -/
theorem Search_the_sample (E : Env) (ii : InvertedIndex)
    (hlow : ∀ c : Char, c.toNat < 128 → E.toLowerRune c = c.toLower)
    (hthe : E.stem "the" = some "the")
    (hother : ∀ doc ∈ mainDocuments, ∀ tok ∈ rawTokens E doc.Content,
      tok ≠ "the" → E.stem tok ≠ some "the") :
    Search E (Add E ii mainDocuments).1 "the" = [1, 1, 2, 3] := by
  have hq : ToLower E "the" = "the" := by
    rw [ToLower_ascii E hlow "the" (by decide)]
    decide
  simp only [Add]
  rw [Search_eq_mapGetD, mapGetD_addLoop, hq, occurrences_sample E hlow "the" hthe hother]
  decide

theorem Search_the_sample_witness :
    (∀ c : Char, c.toNat < 128 → sampleEnv.toLowerRune c = c.toLower) ∧
    sampleEnv.stem "the" = some "the" ∧
    (∀ doc ∈ mainDocuments, ∀ tok ∈ rawTokens sampleEnv doc.Content,
      tok ≠ "the" → sampleEnv.stem tok ≠ some "the") ∧
    Search sampleEnv (Add sampleEnv { Index := none } mainDocuments).1 "the" = [1, 1, 2, 3] :=
  ⟨fun _ _ => rfl, by decide, by decide,
    Search_the_sample sampleEnv { Index := none } (fun _ _ => rfl) (by decide) (by decide)⟩

/-- C11: over the reals, for every receiver, term and identifier, `TF_IDF` is
strictly positive exactly when the lower-cased term is a key, `docID` occurs in
its posting list and `docFreqSet` is strictly smaller than `docsSet`; and on
the sample corpus of `main`, with a lower-casing that is the ASCII one on ASCII
runes and a stemmer that maps `wild` to `wild` and no other raw token of the
corpus to `wild`, the score of `wild` in document 5 is strictly positive. -/
theorem TF_IDF_pos_iff (E : Env) :
    (∀ (ii : Option InvertedIndex) (term : String) (docID : Int),
      0 < TF_IDF Real.log E ii term docID ↔
        ∃ (s : InvertedIndex) (index : IndexMap) (postings : List Int),
          ii = some s ∧ s.Index = some index ∧
          mapGet index (ToLower E term) = some postings ∧ docID ∈ postings ∧
          (docFreqSet postings).card < (scanIndex index docID).2.card) ∧
    (∀ ii : InvertedIndex,
      (∀ c : Char, c.toNat < 128 → E.toLowerRune c = c.toLower) →
      E.stem "wild" = some "wild" →
      (∀ doc ∈ mainDocuments, ∀ tok ∈ rawTokens E doc.Content,
        tok ≠ "wild" → E.stem tok ≠ some "wild") →
      0 < TF_IDF Real.log E (some (Add E ii mainDocuments).1) "wild" 5) := by
  have main : ∀ (index : IndexMap) (term : String) (docID : Int) (postings : List Int),
      mapGet index (ToLower E term) = some postings → docID ∈ postings →
      (0 < TF_IDF Real.log E (some { Index := some index }) term docID ↔
        (docFreqSet postings).card < (scanIndex index docID).2.card) := by
    intro index term docID postings hkey hmem
    have hc0 : 0 < postings.count docID := List.count_pos_iff.mpr hmem
    have hT := mapGet_count_le index _ postings hkey docID
    have hd : 1 ≤ postings.toFinset.card :=
      Finset.card_pos.mpr ⟨docID, List.mem_toFinset.mpr hmem⟩
    have hcR : (0 : ℝ) < (postings.count docID : ℝ) := by exact_mod_cast hc0
    have hTR : (0 : ℝ) < ((allPostings index).count docID : ℝ) := by
      exact_mod_cast (lt_of_lt_of_le hc0 hT)
    have hdR : (0 : ℝ) < (postings.toFinset.card : ℝ) := by exact_mod_cast hd
    have htf : (0 : ℝ) < (postings.count docID : ℝ) / ((allPostings index).count docID : ℝ) :=
      div_pos hcR hTR
    rw [TF_IDF_eq_score, docFreqSet_eq_toFinset, scanIndex_eq]
    simp only [mapGetD, hkey, Option.getD_some, score]
    rw [if_neg (by omega), if_neg (by omega)]
    constructor
    · intro hpos
      have hlog : 0 < Real.log
          (((allPostings index).toFinset.card : ℝ) / (postings.toFinset.card : ℝ)) :=
        (pos_iff_pos_of_mul_pos hpos).mp htf
      by_contra hle
      have hNd : ((allPostings index).toFinset.card : ℝ) ≤ (postings.toFinset.card : ℝ) := by
        exact_mod_cast not_lt.mp hle
      have hN0 : (0 : ℝ) ≤ ((allPostings index).toFinset.card : ℝ) := Nat.cast_nonneg _
      have h1 : ((allPostings index).toFinset.card : ℝ) / (postings.toFinset.card : ℝ) ≤ 1 :=
        (div_le_one hdR).mpr hNd
      have h0 : 0 ≤ ((allPostings index).toFinset.card : ℝ) / (postings.toFinset.card : ℝ) :=
        div_nonneg hN0 hdR.le
      have := Real.log_nonpos h0 h1
      linarith
    · intro hlt
      have hNd : (postings.toFinset.card : ℝ) < ((allPostings index).toFinset.card : ℝ) := by
        exact_mod_cast hlt
      have h1 : 1 < ((allPostings index).toFinset.card : ℝ) / (postings.toFinset.card : ℝ) :=
        (one_lt_div hdR).mpr hNd
      exact mul_pos htf (Real.log_pos h1)
  constructor
  · intro ii term docID
    constructor
    · intro hpos
      cases ii with
      | none => simp [TF_IDF] at hpos
      | some s =>
        obtain ⟨idx⟩ := s
        cases idx with
        | none => simp [TF_IDF] at hpos
        | some index =>
          cases hkey : mapGet index (ToLower E term) with
          | none => simp [TF_IDF, hkey] at hpos
          | some postings =>
            by_cases hmem : docID ∈ postings
            · exact ⟨_, index, postings, rfl, rfl, hkey, hmem,
                (main index term docID postings hkey hmem).mp hpos⟩
            · have hc : postings.count docID = 0 := List.count_eq_zero.mpr hmem
              simp [TF_IDF, hkey, termCountInDoc_eq_count, hc] at hpos
    · rintro ⟨s, index, postings, rfl, hidx, hkey, hmem, hlt⟩
      obtain ⟨idx⟩ := s
      simp only at hidx
      subst hidx
      exact (main index term docID postings hkey hmem).mpr hlt
  · intro ii hlow hwild hother
    have hq : ToLower E "wild" = "wild" := by
      rw [ToLower_ascii E hlow "wild" (by decide)]
      decide
    have hocc : occurrences E mainDocuments "wild" = [5] := by
      rw [occurrences_sample E hlow "wild" hwild hother]
      decide
    have hkey : mapGet (addLoop E [] mainDocuments) (ToLower E "wild") = some [5] := by
      rw [hq, ← hocc]
      exact mapGet_addLoop E mainDocuments "wild" (by rw [hocc]; decide)
    have hne : tokenize E "The quick brown fox jumps over the lazy dog." ≠ [] := by
      rw [tokenize_eq_map, rawTokens_ascii E hlow _ (by decide)]
      intro h
      have := congrArg List.length h
      rw [List.length_map] at this
      revert this
      decide
    have h1 : (1 : Int) ∈ (allPostings (addLoop E [] mainDocuments)).toFinset := by
      rw [List.toFinset_eq_of_perm _ _ (allPostings_addLoop E mainDocuments), List.mem_toFinset,
        mem_docPairs_ids]
      exact ⟨⟨1, "The quick brown fox jumps over the lazy dog."⟩, by decide, rfl, hne⟩
    have h5 : (5 : Int) ∈ (allPostings (addLoop E [] mainDocuments)).toFinset := by
      rw [List.mem_toFinset]
      have hsub := mapGet_subset _ _ _ hkey
      exact List.mem_toFinset.mp (hsub (by decide))
    have hcard : 1 < (allPostings (addLoop E [] mainDocuments)).toFinset.card :=
      Finset.one_lt_card.mpr ⟨1, h1, 5, h5, by decide⟩
    simp only [Add]
    refine (main (addLoop E [] mainDocuments) "wild" 5 [5] hkey (by decide)).mpr ?_
    rw [scanIndex_eq]
    exact hcard

theorem TF_IDF_pos_iff_witness :
    (∀ c : Char, c.toNat < 128 → sampleEnv.toLowerRune c = c.toLower) ∧
    sampleEnv.stem "wild" = some "wild" ∧
    (∀ doc ∈ mainDocuments, ∀ tok ∈ rawTokens sampleEnv doc.Content,
      tok ≠ "wild" → sampleEnv.stem tok ≠ some "wild") ∧
    0 < TF_IDF Real.log sampleEnv (some (Add sampleEnv { Index := none } mainDocuments).1)
      "wild" 5 :=
  ⟨fun _ _ => rfl, by decide, by decide,
    (TF_IDF_pos_iff sampleEnv).2 { Index := none } (fun _ _ => rfl) (by decide) (by decide)⟩

end SearchEngine
